import Mathlib

/-!
# Verification of the chatroom project

A shallow embedding of the chatroom application (server routing engine,
session registry, client session backlog, file-chunk reassembly, and the
encrypted-payload codec) together with proofs settling the specification
claims.

Conventions:
* Python `bytes` values are `List Nat`, each entry a byte (`< 256` where a
  claim needs it).
* Python `str` values are `String` (or `List Char` for the base64 transport
  strings produced by `common/crypto.py`).
* Fallible Python code (exceptions) is embedded with `Option`.
* External libraries (`cryptography`'s AESGCM, Python's `json`, `base64`)
  are not part of this repository; they are modelled concretely, faithful
  to their documented contracts, with the repository's own plumbing
  (`common/crypto.py`) translated on top of them.
-/

namespace Chat

/-- Python `bytes`: a list of byte values. -/
abbrev Bytes := List Nat

/-! ## Base64 (model of Python's `base64.b64encode`/`b64decode`, used by
`b64`/`b64d` in `common/crypto.py`) -/

/-- The base64 alphabet: sextet value to character. -/
def b64charOf (n : Nat) : Char :=
  if n < 26 then Char.ofNat (65 + n)
  else if n < 52 then Char.ofNat (97 + (n - 26))
  else if n < 62 then Char.ofNat (48 + (n - 52))
  else if n = 62 then '+' else '/'

/-- Inverse of the base64 alphabet. -/
def b64decOf (c : Char) : Option Nat :=
  if 65 ≤ c.toNat ∧ c.toNat ≤ 90 then some (c.toNat - 65)
  else if 97 ≤ c.toNat ∧ c.toNat ≤ 122 then some (c.toNat - 97 + 26)
  else if 48 ≤ c.toNat ∧ c.toNat ≤ 57 then some (c.toNat - 48 + 52)
  else if c = '+' then some 62
  else if c = '/' then some 63
  else none

/-- Base64-encode a byte string, with `=` padding, three input bytes per
four output characters. -/
def b64encode : Bytes → List Char
  | [] => []
  | [a] => [b64charOf (a / 4), b64charOf (a % 4 * 16), '=', '=']
  | [a, b] => [b64charOf (a / 4), b64charOf (a % 4 * 16 + b / 16),
               b64charOf (b % 16 * 4), '=']
  | a :: b :: c :: rest =>
      b64charOf (a / 4) :: b64charOf (a % 4 * 16 + b / 16) ::
      b64charOf (b % 16 * 4 + c / 64) :: b64charOf (c % 64) :: b64encode rest

/-- Base64-decode; `none` models the `binascii` error on malformed input. -/
def b64decode : List Char → Option Bytes
  | [] => some []
  | s1 :: s2 :: s3 :: s4 :: rest =>
      if s3 = '=' ∧ s4 = '=' ∧ rest = [] then do
        let a1 ← b64decOf s1
        let a2 ← b64decOf s2
        pure [a1 * 4 + a2 / 16]
      else if s4 = '=' ∧ rest = [] then do
        let a1 ← b64decOf s1
        let a2 ← b64decOf s2
        let a3 ← b64decOf s3
        pure [a1 * 4 + a2 / 16, a2 % 16 * 16 + a3 / 4]
      else do
        let a1 ← b64decOf s1
        let a2 ← b64decOf s2
        let a3 ← b64decOf s3
        let a4 ← b64decOf s4
        let tl ← b64decode rest
        pure ((a1 * 4 + a2 / 16) :: (a2 % 16 * 16 + a3 / 4) ::
              (a3 % 4 * 64 + a4) :: tl)
  | _ => none

theorem b64charOf_ne_eq : ∀ n < 64, b64charOf n ≠ '=' := by decide

theorem b64_table_roundtrip : ∀ n < 64, b64decOf (b64charOf n) = some n := by
  decide

theorem b64_roundtrip (bs : Bytes) (h : ∀ x ∈ bs, x < 256) :
    b64decode (b64encode bs) = some bs := by
  induction bs using b64encode.induct with
  | case1 => simp [b64encode, b64decode]
  | case2 a =>
      have ha : a < 256 := h a (by simp)
      have h1 := b64_table_roundtrip (a / 4) (by omega)
      have h2 := b64_table_roundtrip (a % 4 * 16) (by omega)
      simp only [b64encode, b64decode]
      rw [if_pos (by simp)]
      simp only [h1, h2, Option.pure_def, Option.bind_eq_bind,
        Option.some_bind, Option.some.injEq, List.cons.injEq, and_true]
      omega
  | case3 a b =>
      have ha : a < 256 := h a (by simp)
      have hb : b < 256 := h b (by simp)
      have h1 := b64_table_roundtrip (a / 4) (by omega)
      have h2 := b64_table_roundtrip (a % 4 * 16 + b / 16) (by omega)
      have h3 := b64_table_roundtrip (b % 16 * 4) (by omega)
      have hne : b64charOf (b % 16 * 4) ≠ '=' := b64charOf_ne_eq _ (by omega)
      simp only [b64encode, b64decode]
      rw [if_neg (by simp [hne]), if_pos (by simp)]
      simp only [h1, h2, h3, Option.pure_def, Option.bind_eq_bind,
        Option.some_bind, Option.some.injEq, List.cons.injEq, and_true]
      constructor <;> omega
  | case4 a b c rest ih =>
      have ha : a < 256 := h a (by simp)
      have hb : b < 256 := h b (by simp)
      have hc : c < 256 := h c (by simp)
      have h1 := b64_table_roundtrip (a / 4) (by omega)
      have h2 := b64_table_roundtrip (a % 4 * 16 + b / 16) (by omega)
      have h3 := b64_table_roundtrip (b % 16 * 4 + c / 64) (by omega)
      have h4 := b64_table_roundtrip (c % 64) (by omega)
      have hne3 : b64charOf (b % 16 * 4 + c / 64) ≠ '=' :=
        b64charOf_ne_eq _ (by omega)
      have hne4 : b64charOf (c % 64) ≠ '=' := b64charOf_ne_eq _ (by omega)
      have ih' := ih (fun x hx => h x (by simp [hx]))
      simp only [b64encode, b64decode]
      rw [if_neg (by simp [hne3]), if_neg (by simp [hne4])]
      simp only [h1, h2, h3, h4, ih', Option.pure_def, Option.bind_eq_bind,
        Option.some_bind, Option.some.injEq, List.cons.injEq, and_true]
      refine ⟨by omega, by omega, by omega⟩

/-! ## Message bodies and a serialization model of Python's `json` codec

Every body this application serializes is a flat JSON object whose values
are strings, integers or booleans (`{"text": ...}`, `{"username": ...,
"avatar_id": ...}`, `{"id": ..., "seq": ..., "final": ..., "data": ...}`,
...).  Python's `json` is external to the repository; it is modelled by a
concrete injective serializer with a total inverse, which is the contract
`encrypt_body`/`decrypt_body` rely on (`json.loads(json.dumps(b)) == b`). -/

/-- A value of a message-body dictionary. -/
inductive BVal where
  | s (v : String)
  | i (v : Int)
  | b (v : Bool)
  | null
deriving DecidableEq

/-- A message body: a Python dict (JSON object) with string keys,
in insertion order. -/
abbrev Body := List (String × BVal)

/-- Little-endian base-255 digits, with an explicit structural fuel so
that the kernel can evaluate it. -/
def digitsAux : Nat → Nat → List Nat
  | 0, _ => []
  | fuel + 1, n => if n = 0 then [] else n % 255 :: digitsAux fuel (n / 255)

/-- Little-endian base-255 digits of `n`. -/
def natDigits (n : Nat) : List Nat := digitsAux n n

theorem digitsAux_eq_digits (fuel n : Nat) (h : n ≤ fuel) :
    digitsAux fuel n = Nat.digits 255 n := by
  induction fuel generalizing n with
  | zero =>
      have : n = 0 := by omega
      subst this
      simp [digitsAux]
  | succ f ih =>
      by_cases hn : n = 0
      · subst hn
        simp [digitsAux]
      · have hlt : n / 255 < n := Nat.div_lt_self (by omega) (by norm_num)
        have hrec : digitsAux f (n / 255) = Nat.digits 255 (n / 255) :=
          ih _ (by omega)
        rw [digitsAux, if_neg hn, hrec, ← Nat.digits_def'
          (by norm_num : (1:Nat) < 255) (Nat.pos_of_ne_zero hn)]

theorem natDigits_eq_digits (n : Nat) : natDigits n = Nat.digits 255 n :=
  digitsAux_eq_digits n n le_rfl

/-- Serialize a natural number: its base-255 digits shifted into `1..255`,
then a `0` terminator byte. -/
def natEnc (n : Nat) : Bytes := (natDigits n).map (· + 1) ++ [0]

theorem natEnc_eq (n : Nat) :
    natEnc n = (Nat.digits 255 n).map (· + 1) ++ [0] := by
  rw [natEnc, natDigits_eq_digits]

/-- Parse a `natEnc`-serialized natural, returning the remainder. -/
def natDec (l : Bytes) : Option (Nat × Bytes) :=
  match l.dropWhile (· ≠ 0) with
  | 0 :: rest =>
      some (Nat.ofDigits 255 ((l.takeWhile (· ≠ 0)).map (· - 1)), rest)
  | _ => none

theorem takeWhile_append_all {α} (p : α → Bool) (l1 l2 : List α)
    (h : ∀ x ∈ l1, p x) : (l1 ++ l2).takeWhile p = l1 ++ l2.takeWhile p := by
  induction l1 with
  | nil => simp
  | cons a t ih =>
      simp only [List.cons_append, List.takeWhile_cons, h a (by simp)]
      simp [ih (fun x hx => h x (by simp [hx]))]

theorem dropWhile_append_all {α} (p : α → Bool) (l1 l2 : List α)
    (h : ∀ x ∈ l1, p x) : (l1 ++ l2).dropWhile p = l2.dropWhile p := by
  induction l1 with
  | nil => simp
  | cons a t ih =>
      simp only [List.cons_append, List.dropWhile_cons, h a (by simp)]
      simp [ih (fun x hx => h x (by simp [hx]))]

theorem natDec_natEnc (n : Nat) (rest : Bytes) :
    natDec (natEnc n ++ rest) = some (n, rest) := by
  have hall : ∀ x ∈ (Nat.digits 255 n).map (· + 1), (x ≠ 0 : Bool) := by
    intro x hx
    simp only [List.mem_map] at hx
    obtain ⟨d, _, rfl⟩ := hx
    simp
  have htake : ((natEnc n ++ rest).takeWhile (· ≠ 0)) =
      (Nat.digits 255 n).map (· + 1) := by
    simp only [natEnc_eq, List.append_assoc, List.cons_append]
    rw [takeWhile_append_all _ _ _ hall]
    simp [List.takeWhile_cons]
  have hdrop : ((natEnc n ++ rest).dropWhile (· ≠ 0)) = 0 :: rest := by
    simp only [natEnc_eq, List.append_assoc, List.cons_append]
    rw [dropWhile_append_all _ _ _ hall]
    simp [List.dropWhile_cons]
  simp only [natDec, hdrop, htake]
  congr 1
  congr 1
  rw [List.map_map]
  have : ((fun x => x - 1) ∘ (fun x => x + 1)) = id := by
    funext x; simp
  rw [this, List.map_id, Nat.ofDigits_digits]

theorem natEnc_lt (n : Nat) : ∀ x ∈ natEnc n, x < 256 := by
  intro x hx
  simp only [natEnc_eq, List.mem_append, List.mem_map, List.mem_singleton]
    at hx
  rcases hx with ⟨d, hd, rfl⟩ | rfl
  · have := Nat.digits_lt_base (by norm_num) hd
    omega
  · omega

/-- Serialize a string: character count, then each character's code point. -/
def strEnc (s : String) : Bytes :=
  natEnc s.data.length ++ (s.data.map (fun c => natEnc c.toNat)).flatten

/-- Parse `k` serialized characters. -/
def charsDec : Nat → Bytes → Option (List Char × Bytes)
  | 0, l => some ([], l)
  | k + 1, l => do
      let (n, r1) ← natDec l
      let (cs, r2) ← charsDec k r1
      pure (Char.ofNat n :: cs, r2)

/-- Parse a `strEnc`-serialized string, returning the remainder. -/
def strDec (l : Bytes) : Option (String × Bytes) := do
  let (n, r1) ← natDec l
  let (cs, r2) ← charsDec n r1
  pure (String.mk cs, r2)

theorem charsDec_join (cs : List Char) (rest : Bytes) :
    charsDec cs.length ((cs.map (fun c => natEnc c.toNat)).flatten ++ rest) =
      some (cs, rest) := by
  induction cs with
  | nil => simp [charsDec]
  | cons a t ih =>
      simp only [List.length_cons, List.map_cons, List.flatten_cons,
        List.append_assoc, charsDec, natDec_natEnc, Option.pure_def,
        Option.bind_eq_bind, Option.some_bind, ih, Char.ofNat_toNat]

theorem strDec_strEnc (s : String) (rest : Bytes) :
    strDec (strEnc s ++ rest) = some (s, rest) := by
  simp only [strEnc, strDec, List.append_assoc, natDec_natEnc,
    Option.pure_def, Option.bind_eq_bind, Option.some_bind, charsDec_join]

theorem strEnc_lt (s : String) : ∀ x ∈ strEnc s, x < 256 := by
  intro x hx
  simp only [strEnc, List.mem_append, List.mem_flatten, List.mem_map] at hx
  rcases hx with hx | ⟨l, ⟨c, _, rfl⟩, hl⟩
  · exact natEnc_lt _ x hx
  · exact natEnc_lt _ x hl

/-- Serialize an integer: a sign byte then the magnitude. -/
def intEnc (v : Int) : Bytes :=
  if v < 0 then 1 :: natEnc (-v).toNat else 0 :: natEnc v.toNat

/-- Parse an `intEnc`-serialized integer, returning the remainder. -/
def intDec : Bytes → Option (Int × Bytes)
  | 0 :: l => (natDec l).map (fun p => ((p.1 : Int), p.2))
  | 1 :: l => (natDec l).map (fun p => (-(p.1 : Int), p.2))
  | _ => none

theorem intDec_intEnc (v : Int) (rest : Bytes) :
    intDec (intEnc v ++ rest) = some (v, rest) := by
  by_cases hv : v < 0
  · have hm : ((-v).toNat : Int) = -v := by omega
    simp [intEnc, if_pos hv, intDec, natDec_natEnc, hm]
  · have hm : (v.toNat : Int) = v := by omega
    simp [intEnc, if_neg hv, intDec, natDec_natEnc, hm]

theorem intEnc_lt (v : Int) : ∀ x ∈ intEnc v, x < 256 := by
  intro x hx
  simp only [intEnc] at hx
  split at hx <;> simp only [List.mem_cons] at hx <;>
    rcases hx with rfl | hx
  · omega
  · exact natEnc_lt _ x hx
  · omega
  · exact natEnc_lt _ x hx

/-- Serialize a body value: a tag byte, then the value. -/
def bvalEnc : BVal → Bytes
  | .s v => 0 :: strEnc v
  | .i v => 1 :: intEnc v
  | .b v => 2 :: [if v then 1 else 0]
  | .null => [3]

/-- Parse a `bvalEnc`-serialized value, returning the remainder. -/
def bvalDec : Bytes → Option (BVal × Bytes)
  | 0 :: l => (strDec l).map (fun p => (BVal.s p.1, p.2))
  | 1 :: l => (intDec l).map (fun p => (BVal.i p.1, p.2))
  | 2 :: 0 :: l => some (BVal.b false, l)
  | 2 :: 1 :: l => some (BVal.b true, l)
  | 3 :: l => some (BVal.null, l)
  | _ => none

theorem bvalDec_bvalEnc (v : BVal) (rest : Bytes) :
    bvalDec (bvalEnc v ++ rest) = some (v, rest) := by
  cases v with
  | s v => simp [bvalEnc, bvalDec, strDec_strEnc]
  | i v => simp [bvalEnc, bvalDec, intDec_intEnc]
  | b v => cases v <;> simp [bvalEnc, bvalDec]
  | null => simp [bvalEnc, bvalDec]

theorem bvalEnc_lt (v : BVal) : ∀ x ∈ bvalEnc v, x < 256 := by
  intro x hx
  cases v with
  | s v =>
      simp only [bvalEnc, List.mem_cons] at hx
      rcases hx with rfl | hx
      · omega
      · exact strEnc_lt _ x hx
  | i v =>
      simp only [bvalEnc, List.mem_cons] at hx
      rcases hx with rfl | hx
      · omega
      · exact intEnc_lt _ x hx
  | b v =>
      cases v <;> simp [bvalEnc] at hx <;> omega
  | null =>
      simp [bvalEnc] at hx
      omega

/-- Serialize one key/value pair of a body. -/
def pairEnc (p : String × BVal) : Bytes := strEnc p.1 ++ bvalEnc p.2

/-- Parse `k` serialized key/value pairs. -/
def pairsDec : Nat → Bytes → Option (Body × Bytes)
  | 0, l => some ([], l)
  | k + 1, l => do
      let (key, r1) ← strDec l
      let (v, r2) ← bvalDec r1
      let (ps, r3) ← pairsDec k r2
      pure ((key, v) :: ps, r3)

/-- Serialize a whole body: the pair count, then the pairs in order.
Model of `json.dumps(body, ensure_ascii=False).encode()`. -/
def jsonDumps (b : Body) : Bytes :=
  natEnc b.length ++ (b.map pairEnc).flatten

/-- Parse a serialized body.  Model of `json.loads(data.decode())`;
`none` models a `JSONDecodeError`. -/
def jsonLoads (l : Bytes) : Option Body :=
  match natDec l with
  | some (n, r1) =>
      match pairsDec n r1 with
      | some (b, []) => some b
      | _ => none
  | none => none

theorem pairsDec_flatten (b : Body) (rest : Bytes) :
    pairsDec b.length ((b.map pairEnc).flatten ++ rest) = some (b, rest) := by
  induction b with
  | nil => simp [pairsDec]
  | cons p t ih =>
      simp only [List.length_cons, List.map_cons, List.flatten_cons, pairEnc,
        List.append_assoc, pairsDec, strDec_strEnc, Option.pure_def,
        Option.bind_eq_bind, Option.some_bind, bvalDec_bvalEnc, ih]

theorem jsonLoads_jsonDumps (b : Body) : jsonLoads (jsonDumps b) = some b := by
  have h := pairsDec_flatten b []
  simp only [List.append_nil] at h
  have h2 : natDec (jsonDumps b) =
      some (b.length, (b.map pairEnc).flatten) := by
    simp [jsonDumps, natDec_natEnc]
  simp [jsonLoads, h2, h]

theorem jsonDumps_lt (b : Body) : ∀ x ∈ jsonDumps b, x < 256 := by
  intro x hx
  simp only [jsonDumps, List.mem_append, List.mem_flatten, List.mem_map] at hx
  rcases hx with hx | ⟨l, ⟨p, _, rfl⟩, hl⟩
  · exact natEnc_lt _ x hx
  · simp only [pairEnc, List.mem_append] at hl
    rcases hl with hl | hl
    · exact strEnc_lt _ x hl
    · exact bvalEnc_lt _ x hl

/-! ## AES-GCM model

`cryptography.hazmat.primitives.ciphers.aead.AESGCM` is an external
library.  It is modelled concretely and faithfully to its documented
contract: `encrypt(nonce, pt, aad)` returns `ciphertext || 16-byte tag`,
the ciphertext is the plaintext XOR-ed with a keystream determined by
`(key, nonce)` (AES-GCM is a CTR-mode stream cipher), the tag is a
deterministic function of `(key, nonce, ciphertext)` (empty AAD
throughout this code base), and `decrypt` recomputes and checks the tag
(raising `InvalidTag`, modelled `none`, on mismatch) before undoing the
keystream. -/

/-- The keystream byte at position `i` for `(key, nonce)`. -/
def ksByte (key nonce : Bytes) (i : Nat) : Nat :=
  (key.sum * 131 + nonce.sum * 17 + i * 7 + 3) % 256

/-- XOR a byte string against the `(key, nonce)` keystream starting at
position `i`. -/
def xorStream (key nonce : Bytes) : Nat → Bytes → Bytes
  | _, [] => []
  | i, x :: xs => (x ^^^ ksByte key nonce i) :: xorStream key nonce (i + 1) xs

/-- The 16-byte authentication tag for `(key, nonce, ciphertext)`. -/
def gcmTag (key nonce ct : Bytes) : Bytes :=
  (List.range 16).map
    (fun j => (key.sum * 31 + nonce.sum * 7 + ct.sum * 3 + ct.length + j) % 256)

/-- Model of `AESGCM(key).encrypt(nonce, pt, b"")`: `ciphertext || tag`. -/
def aesgcmEncrypt (key nonce pt : Bytes) : Bytes :=
  let ct := xorStream key nonce 0 pt
  ct ++ gcmTag key nonce ct

/-- Model of `AESGCM(key).decrypt(nonce, data, b"")`; `none` models
`InvalidTag`. -/
def aesgcmDecrypt (key nonce data : Bytes) : Option Bytes :=
  let ct := data.take (data.length - 16)
  let tag := data.drop (data.length - 16)
  if 16 ≤ data.length ∧ tag = gcmTag key nonce ct then
    some (xorStream key nonce 0 ct)
  else none

theorem xorStream_involutive (key nonce : Bytes) (i : Nat) (l : Bytes) :
    xorStream key nonce i (xorStream key nonce i l) = l := by
  induction l generalizing i with
  | nil => rfl
  | cons x xs ih =>
      simp only [xorStream, Nat.xor_cancel_right, List.cons.injEq, true_and]
      exact ih (i + 1)

theorem xorStream_length (key nonce : Bytes) (i : Nat) (l : Bytes) :
    (xorStream key nonce i l).length = l.length := by
  induction l generalizing i with
  | nil => rfl
  | cons x xs ih => simpa [xorStream] using ih (i + 1)

theorem xorStream_lt (key nonce : Bytes) (i : Nat) (l : Bytes)
    (h : ∀ x ∈ l, x < 256) : ∀ y ∈ xorStream key nonce i l, y < 256 := by
  induction l generalizing i with
  | nil => simp [xorStream]
  | cons x xs ih =>
      intro y hy
      simp only [xorStream, List.mem_cons] at hy
      rcases hy with rfl | hy
      · have h1 : x < 2 ^ 8 := by have := h x (by simp); omega
        have h2 : ksByte key nonce i < 2 ^ 8 := by
          have : ksByte key nonce i < 256 := Nat.mod_lt _ (by norm_num)
          omega
        have := Nat.xor_lt_two_pow h1 h2
        omega
      · exact ih (i + 1) (fun z hz => h z (by simp [hz])) y hy

theorem gcmTag_length (key nonce ct : Bytes) : (gcmTag key nonce ct).length = 16 := by
  simp [gcmTag]

theorem gcmTag_lt (key nonce ct : Bytes) : ∀ x ∈ gcmTag key nonce ct, x < 256 := by
  intro x hx
  simp only [gcmTag, List.mem_map, List.mem_range] at hx
  obtain ⟨j, _, rfl⟩ := hx
  exact Nat.mod_lt _ (by norm_num)

theorem aesgcmDecrypt_append (key nonce ct tag : Bytes)
    (htag : tag = gcmTag key nonce ct) (hlen : tag.length = 16) :
    aesgcmDecrypt key nonce (ct ++ tag) = some (xorStream key nonce 0 ct) := by
  have h1 : (ct ++ tag).length - 16 = ct.length := by simp [hlen]
  have hcond : 16 ≤ (ct ++ tag).length ∧
      (ct ++ tag).drop ((ct ++ tag).length - 16) =
        gcmTag key nonce ((ct ++ tag).take ((ct ++ tag).length - 16)) := by
    rw [h1, List.take_left, List.drop_left]
    exact ⟨by simp [hlen], htag⟩
  simp only [aesgcmDecrypt]
  rw [if_pos hcond, h1, List.take_left]

theorem aesgcm_roundtrip (key nonce pt : Bytes) :
    aesgcmDecrypt key nonce (aesgcmEncrypt key nonce pt) = some pt := by
  rw [show aesgcmEncrypt key nonce pt = xorStream key nonce 0 pt ++
        gcmTag key nonce (xorStream key nonce 0 pt) from rfl,
    aesgcmDecrypt_append _ _ _ _ rfl (gcmTag_length _ _ _),
    xorStream_involutive]

/-! ## `common/crypto.py`: `aes_encrypt`, `aes_decrypt`, `pack_encrypted`,
`unpack_encrypted`, `encrypt_body`, `decrypt_body` -/

/-- `aes_encrypt(key, plaintext)` from `common/crypto.py`.  The source
samples `nonce = os.urandom(12)`; the sampled nonce is an explicit
argument here.  Returns `(b64(nonce), b64(ct[:-16]), b64(ct[-16:]))`. -/
def aes_encrypt (key nonce plaintext : Bytes) :
    List Char × List Char × List Char :=
  let ct := aesgcmEncrypt key nonce plaintext
  (b64encode nonce, b64encode (ct.take (ct.length - 16)),
   b64encode (ct.drop (ct.length - 16)))

/-- `aes_decrypt(key, nonce_b64, ct_b64, tag_b64)` from `common/crypto.py`:
base64-decode the three parts, rejoin `ct || tag`, AESGCM-decrypt. -/
def aes_decrypt (key : Bytes) (nonce_b64 ct_b64 tag_b64 : List Char) :
    Option Bytes := do
  let nonce ← b64decode nonce_b64
  let ct ← b64decode ct_b64
  let tag ← b64decode tag_b64
  aesgcmDecrypt key nonce (ct ++ tag)

/-- The three base64 components of an encrypted payload:
`{"enc": {"n": ..., "c": ..., "t": ...}}`. -/
structure EncPayload where
  n : List Char
  c : List Char
  t : List Char
deriving DecidableEq

/-- `pack_encrypted` from `common/crypto.py`. -/
def pack_encrypted (n c t : List Char) : EncPayload := ⟨n, c, t⟩

/-- `unpack_encrypted` from `common/crypto.py`. -/
def unpack_encrypted (e : EncPayload) : List Char × List Char × List Char :=
  (e.n, e.c, e.t)

/-- An envelope payload: either the `{"enc": ...}` dict produced by
`pack_encrypted`, or a plaintext dict (handshake, system, error
envelopes). -/
inductive Payload where
  | enc (e : EncPayload)
  | clear (d : Body)
deriving DecidableEq

/-- `encrypt_body(key, body)` from `common/crypto.py` (the `os.urandom`
nonce is explicit): JSON-serialize, AES-GCM-encrypt, pack. -/
def encrypt_body (nonce key : Bytes) (body : Body) : Payload :=
  let parts := aes_encrypt key nonce (jsonDumps body)
  .enc (pack_encrypted parts.1 parts.2.1 parts.2.2)

/-- `decrypt_body(key, payload)` from `common/crypto.py`: unpack,
AES-GCM-decrypt, JSON-parse.  `none` models any raised exception
(`KeyError` on a payload without `"enc"`, `InvalidTag`, decode errors). -/
def decrypt_body (key : Bytes) (p : Payload) : Option Body :=
  match p with
  | .clear _ => none
  | .enc e =>
      let parts := unpack_encrypted e
      do
        let data ← aes_decrypt key parts.1 parts.2.1 parts.2.2
        jsonLoads data

theorem decrypt_body_encrypt_body (key nonce : Bytes) (body : Body)
    (hnonce : ∀ x ∈ nonce, x < 256) :
    decrypt_body key (encrypt_body nonce key body) = some body := by
  have hpt := jsonDumps_lt body
  have hctfull : ∀ x ∈ aesgcmEncrypt key nonce (jsonDumps body), x < 256 := by
    intro x hx
    simp only [aesgcmEncrypt, List.mem_append] at hx
    rcases hx with hx | hx
    · exact xorStream_lt _ _ _ _ hpt x hx
    · exact gcmTag_lt _ _ _ x hx
  set ctfull := aesgcmEncrypt key nonce (jsonDumps body) with hdef
  have hsplit : ctfull.take (ctfull.length - 16) ++
      ctfull.drop (ctfull.length - 16) = ctfull := List.take_append_drop _ _
  simp only [encrypt_body, decrypt_body, aes_encrypt, pack_encrypted,
    unpack_encrypted, aes_decrypt, Option.bind_eq_bind]
  rw [b64_roundtrip nonce hnonce,
    b64_roundtrip _ (fun x hx => hctfull x (List.mem_of_mem_take hx)),
    b64_roundtrip _ (fun x hx => hctfull x (List.mem_of_mem_drop hx))]
  simp only [Option.some_bind, hsplit]
  rw [hdef, aesgcm_roundtrip]
  simp [jsonLoads_jsonDumps]

/-! ## `server/state.py`: the session registry -/

/-- The `Client` dataclass from `server/state.py`.  Its declared fields
are exactly `username`, `sock` and `aes_key` (defaulting to `None`); in
particular it has **no** `avatar_id` field.  Sockets are identified by
their file descriptor number. -/
structure Client where
  username : String
  sock : Nat
  aes_key : Option Bytes := none
deriving DecidableEq

/-- The field names the `Client` dataclass declares, in order
(`server/state.py` lines 6–10). -/
def clientFields : List String := ["username", "sock", "aes_key"]

/-- The keyword names passed at the `Client(...)` construction site in
`handle_client` (`server/main.py` line 53). -/
def handleClientCtorKwargs : List String := ["username", "sock", "avatar_id"]

/-- A Python dataclass-generated `__init__` accepts a keyword call iff
every keyword names a declared field; otherwise it raises `TypeError`
(`__init__() got an unexpected keyword argument ...`). -/
def kwargsAccepted (fields kwargs : List String) : Bool :=
  kwargs.all fields.contains

/-- `ServerState` from `server/state.py`: the dict mapping usernames to
`Client` records, in insertion order.  The `threading.Lock` only guards
each method's body; each method is atomic here. -/
structure ServerState where
  clients : List Client
deriving DecidableEq

/-- `ServerState.get`: `self.clients.get(username)`. -/
def ServerState.get (st : ServerState) (u : String) : Option Client :=
  st.clients.find? (fun c => c.username == u)

/-- `ServerState.add_client`: atomic check-and-insert; returns `False`
and leaves the dict untouched when the username is already present. -/
def ServerState.add_client (st : ServerState) (c : Client) :
    Bool × ServerState :=
  if st.clients.any (fun x => x.username == c.username) then (false, st)
  else (true, ⟨st.clients ++ [c]⟩)

/-- `ServerState.remove`: `self.clients.pop(username, None)`. -/
def ServerState.remove (st : ServerState) (u : String) : ServerState :=
  ⟨st.clients.filter (fun c => c.username ≠ u)⟩

/-- `ServerState.users`: the list of registered usernames. -/
def ServerState.users (st : ServerState) : List String :=
  st.clients.map (·.username)

/-- `ServerState.all_clients`: the list of `Client` records. -/
def ServerState.all_clients (st : ServerState) : List Client :=
  st.clients

/-! ## Envelopes (`common/messages.py`) and the routing engine
(`server/main.py`) -/

/-- The `Envelope` shape from `common/messages.py`: plaintext routing
fields around a payload that is either plaintext or an encrypted body. -/
structure Envelope where
  type : String
  sender : Option String
  «to» : Option String
  ts : String
  payload : Payload
deriving DecidableEq

/-- One transmission: the destination socket and the envelope handed to
`send_json`. -/
abbrev Send := Nat × Envelope

/-- `None`-tolerant JSON value of an optional string. -/
def optStr : Option String → BVal
  | some s => .s s
  | none => .null

/-- The `error{code: USER_NOT_FOUND, user: to}` envelope `route` bounces
to the sender (`server/main.py` lines 151–152). -/
def userNotFoundEnv (now : String) (sender target : Option String) : Envelope :=
  { type := "error", sender := none, «to» := sender, ts := now,
    payload := .clear [("code", .s "USER_NOT_FOUND"), ("user", optStr target)] }

/-- `route(env)` from `server/main.py`, returning the `send_json` calls
performed, in order.  `nonce` stands for the `os.urandom(12)` samples
drawn inside `encrypt_body` (every claim here is nonce-independent), and
`now` for `iso_now()`.  A recipient whose `aes_key` is `None` makes
`encrypt_body` raise, which the per-recipient `try/except: continue`
swallows, so such recipients produce no send. -/
def route (st : ServerState) (nonce : Bytes) (now : String)
    (env : Envelope) : List Send :=
  let target := env.«to»
  let sender := env.sender
  let cs := match sender with
    | some s => st.get s
    | none => none
  match cs with
  | none => []
  | some csr =>
    match csr.aes_key with
    | none => []
    | some skey =>
      match decrypt_body skey env.payload with
      | none => []
      | some body =>
        if env.type = "pub" then
          st.all_clients.filterMap (fun rcpt =>
            match rcpt.aes_key with
            | some rkey => some (rcpt.sock,
                { env with «to» := some "*",
                           payload := encrypt_body nonce rkey body })
            | none => none)
        else if env.type = "file_offer" ∧ target = some "*" then
          st.all_clients.filterMap (fun rcpt =>
            if some rcpt.username = sender ∨ rcpt.aes_key = none then none
            else match rcpt.aes_key with
              | some rkey => some (rcpt.sock,
                  { env with «to» := some rcpt.username,
                             payload := encrypt_body nonce rkey body })
              | none => none)
        else if env.type = "priv" ∨ env.type = "file_offer" ∨
            env.type = "file_chunk" ∨ env.type = "file_ack" then
          match (match target with | some t => st.get t | none => none) with
          | some c =>
              match c.aes_key with
              | some rkey =>
                  [(c.sock, { env with
                      payload := encrypt_body nonce rkey body })]
              | none => [(csr.sock, userNotFoundEnv now sender target)]
          | none => [(csr.sock, userNotFoundEnv now sender target)]
        else []

/-! ## The `auth` step of `handle_client` (`server/main.py` lines 49–56) -/

/-- Outcome of the registration attempt for an accepted `auth` envelope. -/
inductive AuthOutcome where
  | typeError
  | duplicate
  | registered
deriving DecidableEq

/-- Lines 49–56 of `server/main.py` for an `auth` envelope carrying
`username` and `avatar_id`: the handler evaluates
`Client(username=username, sock=conn, avatar_id=avatar_id)` and hands the
record to `state.add_client`.  The dataclass call is modelled by
`kwargsAccepted`: Python raises `TypeError` for the unknown keyword
`avatar_id`, which propagates to `handle_client`'s outer
`except Exception`, so `add_client` never runs and the registry is left
as it was. -/
def authRegister (st : ServerState) (conn : Nat) (username : String)
    (avatar_id : Int) : AuthOutcome × ServerState :=
  if kwargsAccepted clientFields handleClientCtorKwargs then
    let r := st.add_client { username := username, sock := conn }
    if r.1 then (.registered, r.2) else (.duplicate, r.2)
  else (.typeError, st)

/-! ## `client/net.py`: the receive loop, the backlog, and the
`on_message` setter -/

/-- The consumer-visible state of a `NetClient`: whether an `on_message`
callback is attached, the backlog of envelopes decoded while none was,
and the envelopes passed to the callback, in call order.  The callback
itself is opaque; `delivered` records the calls made to it (`try/except`
around each call only swallows UI errors and changes no call). -/
structure NetClientState where
  attached : Bool
  backlog : List Envelope
  delivered : List Envelope
deriving DecidableEq

/-- A `NetClient` as constructed without an `on_message` callback. -/
def NetClientState.mkFresh : NetClientState := ⟨false, [], []⟩

/-- One iteration of `_recv_loop` (`client/net.py` lines 183–189) for a
decoded envelope: pass it to the callback when attached, else backlog. -/
def recvStep (s : NetClientState) (env : Envelope) : NetClientState :=
  if s.attached then { s with delivered := s.delivered ++ [env] }
  else { s with backlog := s.backlog ++ [env] }

/-- The `on_message` setter for a non-`None` callback (`client/net.py`
lines 37–55): attach, and if the backlog is non-empty, clear it and
replay it through the new callback in order. -/
def attachCallback (s : NetClientState) : NetClientState :=
  let s1 : NetClientState := { s with attached := true }
  if s1.backlog ≠ [] then
    { s1 with backlog := [], delivered := s1.delivered ++ s1.backlog }
  else s1

/-- The synthetic envelope built in `_recv_loop`'s `except` handler. -/
def disconnectEnv (now : String) : Envelope :=
  { type := "system", sender := none, «to» := some "*", ts := now,
    payload := .clear [("text", .s "Disconnected.")] }

/-- The `except` handler of `_recv_loop` (`client/net.py` lines
190–196): the loop stops, and the synthetic `system` envelope is passed
to the callback only when one is attached; with no callback attached it
is discarded — in particular it is **not** appended to the backlog. -/
def recvLoopError (now : String) (s : NetClientState) : NetClientState :=
  if s.attached then
    { s with delivered := s.delivered ++ [disconnectEnv now] }
  else s

/-! ## `client/ui.py`: file-chunk accumulation and reconstruction -/

/-- A download context `{"name": ..., "chunks": {...}, "next": 0}`
(`client/ui.py` line 792); `chunks` is the dict keyed by `seq`, as an
insertion-ordered association list. -/
structure DownloadCtx where
  name : String
  chunks : List (Nat × Bytes)
  next : Nat
deriving DecidableEq

/-- Python dict assignment `d[k] = v`: overwrite in place, or append. -/
def dictInsert (l : List (Nat × Bytes)) (k : Nat) (v : Bytes) :
    List (Nat × Bytes) :=
  if l.any (fun p => p.1 == k) then
    l.map (fun p => if p.1 == k then (k, v) else p)
  else l ++ [(k, v)]

/-- Python dict subscript `d[k]`; `none` models `KeyError`. -/
def dictGet (l : List (Nat × Bytes)) (k : Nat) : Option Bytes :=
  (l.find? (fun p => p.1 == k)).map Prod.snd

/-- The reconstruction loop (`client/ui.py` lines 796–798):
`for i in range(len(chunks)): ordered.extend(chunks[i])`, left to right;
`none` models the `KeyError` raised when an index below `len(chunks)` is
missing. -/
def collectChunks (m : List (Nat × Bytes)) : Nat → Option (List Bytes)
  | 0 => some []
  | k + 1 => do
      let pre ← collectChunks m k
      let last ← dictGet m k
      pure (pre ++ [last])

/-- One `file_chunk` arrival for a single file id (`client/ui.py` lines
787–815).  Returns the updated context (`none` after the code deletes it
on a successful save) and the save event: `none` when no reconstruction
was attempted (`final` false), `some none` when the reconstruction loop
raised `KeyError` (the context survives, the partial bytearray is lost),
`some (some bytes)` when the file was reconstructed and saved. -/
def processChunk (ctx : Option DownloadCtx) (seq : Nat) (data : Bytes)
    (final : Bool) : Option DownloadCtx × Option (Option Bytes) :=
  let c0 := match ctx with
    | some c => c
    | none => { name := "file.bin", chunks := [], next := 0 }
  let c1 := { c0 with chunks := dictInsert c0.chunks seq data }
  if final then
    match (collectChunks c1.chunks c1.chunks.length).map List.flatten with
    | some bytes => (none, some (some bytes))
    | none => (some c1, some none)
  else (some c1, none)

/-- Process a whole arrival sequence of `(seq, data, final)` chunks for
one file, starting from a given context, accumulating the save events. -/
def processChunksFrom (st : Option DownloadCtx × List (Option Bytes))
    (arr : List (Nat × Bytes × Bool)) :
    Option DownloadCtx × List (Option Bytes) :=
  arr.foldl (fun acc c =>
    let r := processChunk acc.1 c.1 c.2.1 c.2.2
    (r.1, acc.2 ++ r.2.toList)) st

/-- Process an arrival sequence for a fresh transfer. -/
def processChunks (arr : List (Nat × Bytes × Bool)) :
    Option DownloadCtx × List (Option Bytes) :=
  processChunksFrom (none, []) arr

/-- The chunk sequence the sender emits for file content `ds` (the
successive `CHUNK`-sized reads): data chunks `0..n-1` with
`final=False`, then an empty chunk with `seq = n` and `final=True`
(`client/ui.py` upload loop, lines 774–784). -/
def sentChunks (ds : List Bytes) : List (Nat × Bytes × Bool) :=
  ds.enum.map (fun p => (p.1, p.2, false)) ++ [(ds.length, [], true)]

/-! ## Helper lemmas -/

theorem recvStep_fold_unattached (es : List Envelope) (b d : List Envelope) :
    es.foldl recvStep ⟨false, b, d⟩ = ⟨false, b ++ es, d⟩ := by
  induction es generalizing b with
  | nil => simp
  | cons e t ih =>
      simp only [List.foldl_cons, recvStep]
      simp only [Bool.false_eq_true, if_false]
      rw [ih]
      simp

theorem recvStep_fold_attached (es : List Envelope) (b d : List Envelope) :
    es.foldl recvStep ⟨true, b, d⟩ = ⟨true, b, d ++ es⟩ := by
  induction es generalizing d with
  | nil => simp
  | cons e t ih =>
      simp only [List.foldl_cons, recvStep, if_true]
      rw [ih]
      simp

/-! ## Claims -/

/-- **C1** (code_bug).  The spec: an accepted `auth` for a fresh
username creates a `Client` record carrying the avatar id and inserts it
into the registry.  The code: the `Client` dataclass declares no
`avatar_id` field, so `Client(username=..., sock=..., avatar_id=...)` in
`handle_client` raises `TypeError` for every `auth` envelope —
`add_client` is never reached, no record is created, and the registry is
left unchanged. -/
theorem C1_auth_registration_raises (st : ServerState) (conn : Nat)
    (username : String) (avatar_id : Int) :
    authRegister st conn username avatar_id = (AuthOutcome.typeError, st) ∧
    kwargsAccepted clientFields handleClientCtorKwargs = false := by
  have h : kwargsAccepted clientFields handleClientCtorKwargs = false := by
    decide
  exact ⟨by simp [authRegister, h], h⟩

/-- **C4** (confirmed).  Envelopes decoded before a callback is attached
are backlogged and none is delivered; attaching the callback flushes
exactly the backlog to it, in arrival order; envelopes decoded
afterwards are passed to the callback directly — in total the callback
receives exactly `es1 ++ es2`, with no duplication, loss or
reordering. -/
theorem C4_backlog_flush_order (es1 es2 : List Envelope) :
    (es1.foldl recvStep NetClientState.mkFresh).delivered = [] ∧
    (es1.foldl recvStep NetClientState.mkFresh).backlog = es1 ∧
    (es2.foldl recvStep
        (attachCallback (es1.foldl recvStep NetClientState.mkFresh))).delivered
      = es1 ++ es2 ∧
    (es2.foldl recvStep
        (attachCallback (es1.foldl recvStep NetClientState.mkFresh))).backlog
      = [] := by
  have h1 : es1.foldl recvStep NetClientState.mkFresh = ⟨false, es1, []⟩ := by
    simpa [NetClientState.mkFresh] using recvStep_fold_unattached es1 [] []
  have h2 : attachCallback (⟨false, es1, []⟩ : NetClientState) =
      ⟨true, [], es1⟩ := by
    by_cases he : es1 = [] <;> simp [attachCallback, he]
  rw [h1, h2, recvStep_fold_attached]
  simp

/-- **C5** (amended).  The `except` handler of the receive loop delivers
the synthetic `system` disconnection envelope exactly when a callback is
attached at the moment of the error; with no callback attached it is
discarded — the backlog is untouched, so a consumer attached later never
receives it. -/
theorem C5_amended_disconnect_delivery (s : NetClientState) (now : String) :
    (recvLoopError now s).delivered =
      s.delivered ++ (if s.attached then [disconnectEnv now] else []) ∧
    (recvLoopError now s).backlog = s.backlog ∧
    (recvLoopError now s).attached = s.attached := by
  by_cases h : s.attached <;> simp [recvLoopError, h]

/-- **C5** (counterexample).  A loop-terminating error hits a fresh
session with no callback attached; a consumer attached afterwards
receives nothing at all — in particular not the synthetic `system`
envelope the claim promises for the "attached later" case. -/
theorem C5_counterexample_late_attach :
    (attachCallback (recvLoopError "t" NetClientState.mkFresh)).delivered = []
      ∧
    (attachCallback (recvLoopError "t" NetClientState.mkFresh)).backlog = [] :=
  ⟨rfl, rfl⟩

/-- **C6** (confirmed).  Registering a username that is already present
fails (`add_client` returns `False`) and returns the registry exactly as
it was: the first connection's record — socket and session key included
— and every other entry are untouched. -/
theorem C6_duplicate_register_unchanged (st : ServerState) (c0 cnew : Client)
    (h : st.get cnew.username = some c0) :
    (st.add_client cnew).1 = false ∧ (st.add_client cnew).2 = st := by
  have h' : st.clients.find? (fun c => c.username == cnew.username) =
      some c0 := h
  have hmem : c0 ∈ st.clients := List.mem_of_find?_eq_some h'
  have hp := List.find?_some h'
  have hany : st.clients.any (fun x => x.username == cnew.username) = true :=
    List.any_eq_true.mpr ⟨c0, hmem, hp⟩
  simp [ServerState.add_client, hany]

/-- Witness for C6 at a concrete registry. -/
theorem C6_witness :
    (ServerState.get ⟨[⟨"A", 1, some [5]⟩, ⟨"B", 2, none⟩]⟩ "A" =
      some ⟨"A", 1, some [5]⟩) ∧
    ((ServerState.add_client ⟨[⟨"A", 1, some [5]⟩, ⟨"B", 2, none⟩]⟩
        ⟨"A", 3, none⟩).1 = false ∧
      (ServerState.add_client ⟨[⟨"A", 1, some [5]⟩, ⟨"B", 2, none⟩]⟩
        ⟨"A", 3, none⟩).2 = ⟨[⟨"A", 1, some [5]⟩, ⟨"B", 2, none⟩]⟩) :=
  ⟨by decide,
   C6_duplicate_register_unchanged ⟨[⟨"A", 1, some [5]⟩, ⟨"B", 2, none⟩]⟩
     ⟨"A", 1, some [5]⟩ ⟨"A", 3, none⟩ (by decide)⟩

/-! Concrete instances used by witnesses and counterexamples. -/

/-- A fixed 32-byte session key. -/
def wKeyA : Bytes := List.replicate 32 1

/-- A second fixed 32-byte session key. -/
def wKeyB : Bytes := List.replicate 32 9

/-- A fixed 12-byte nonce. -/
def wNonce : Bytes := List.replicate 12 2

/-- A small message body. -/
def wBody : Body := [("text", BVal.s "hi")]

/-- A registry with a keyed client `A` and a registered but keyless
client `B`. -/
def wStAB : ServerState := ⟨[⟨"A", 1, some wKeyA⟩, ⟨"B", 2, none⟩]⟩

/-- A `pub` envelope from `A`, encrypted under `A`'s session key. -/
def wEnvPub : Envelope :=
  ⟨"pub", some "A", some "*", "t0", encrypt_body wNonce wKeyA wBody⟩

/-- **C8** (confirmed).  The routing engine drops an envelope silently —
it performs no send to the sender or to anyone else — when the sender
cannot be resolved, when the sender's record has no established session
key, and when the body fails to decrypt under the sender's session
key. -/
theorem C8_silent_drop (st : ServerState) (nonce : Bytes) (now : String)
    (env : Envelope) :
    (env.sender = none → route st nonce now env = []) ∧
    (∀ s, env.sender = some s → st.get s = none →
      route st nonce now env = []) ∧
    (∀ s csr, env.sender = some s → st.get s = some csr →
      csr.aes_key = none → route st nonce now env = []) ∧
    (∀ s csr skey, env.sender = some s → st.get s = some csr →
      csr.aes_key = some skey → decrypt_body skey env.payload = none →
      route st nonce now env = []) := by
  refine ⟨?_, ?_, ?_, ?_⟩
  · intro h
    simp [route, h]
  · intro s h1 h2
    simp [route, h1, h2]
  · intro s csr h1 h2 h3
    simp [route, h1, h2, h3]
  · intro s csr skey h1 h2 h3 h4
    simp [route, h1, h2, h3, h4]

/-- Witness for C8: a sender with an established key whose payload does
not decrypt (a plaintext payload), an unregistered sender, and a
registered sender without a key, all dropped. -/
theorem C8_witness :
    route ⟨[⟨"A", 1, some wKeyA⟩]⟩ [] "t"
      ⟨"pub", some "A", some "*", "t0", Payload.clear []⟩ = [] ∧
    route ⟨[]⟩ [] "t"
      ⟨"pub", some "A", some "*", "t0", Payload.clear []⟩ = [] ∧
    route ⟨[⟨"A", 1, none⟩]⟩ [] "t"
      ⟨"pub", some "A", some "*", "t0", Payload.clear []⟩ = [] :=
  ⟨(C8_silent_drop _ _ _ _).2.2.2 "A" ⟨"A", 1, some wKeyA⟩ wKeyA rfl
      (by decide) rfl rfl,
   (C8_silent_drop _ _ _ _).2.1 "A" rfl (by decide),
   (C8_silent_drop _ _ _ _).2.2.1 "A" ⟨"A", 1, none⟩ rfl (by decide) rfl⟩

/-- Helper: for a directed envelope (`priv`, direct `file_offer`,
`file_chunk`, `file_ack`) from a resolvable sender with an established
key and a decryptable body, `route` reduces to the recipient-resolution
match. -/
theorem route_directed (st : ServerState) (nonce : Bytes) (now : String)
    (env : Envelope) (s t : String) (csr : Client) (skey : Bytes)
    (body : Body)
    (htype : env.type = "priv" ∨ env.type = "file_offer" ∨
             env.type = "file_chunk" ∨ env.type = "file_ack")
    (hdirect : ¬(env.type = "file_offer" ∧ env.«to» = some "*"))
    (hs : env.sender = some s) (hcs : st.get s = some csr)
    (hkey : csr.aes_key = some skey) (hto : env.«to» = some t)
    (hdec : decrypt_body skey env.payload = some body) :
    route st nonce now env =
      match st.get t with
      | some c =>
          match c.aes_key with
          | some rkey =>
              [(c.sock, { env with payload := encrypt_body nonce rkey body })]
          | none => [(csr.sock, userNotFoundEnv now (some s) (some t))]
      | none => [(csr.sock, userNotFoundEnv now (some s) (some t))] := by
  rcases htype with h | h | h | h
  · simp [route, hs, hcs, hkey, hdec, hto, h]
  · have hts : t ≠ "*" := fun hcon => hdirect ⟨h, by rw [hto, hcon]⟩
    simp [route, hs, hcs, hkey, hdec, hto, h, hts]
  · simp [route, hs, hcs, hkey, hdec, hto, h]
  · simp [route, hs, hcs, hkey, hdec, hto, h]

/-- **C7** (confirmed).  A `priv`, direct `file_offer`, `file_chunk` or
`file_ack` envelope from a keyed sender with a decryptable body is
routed as follows: if the named target is absent from the registry, the
complete output is one `error{USER_NOT_FOUND, user}` envelope to the
sender's socket — nothing reaches any other socket; if the target is
present with an established key, the complete output is one envelope to
the target's socket with the body re-encrypted under the target's own
session key. -/
theorem C7_user_not_found_or_deliver (st : ServerState) (nonce : Bytes)
    (now : String) (env : Envelope) (s t : String) (csr : Client)
    (skey : Bytes) (body : Body)
    (htype : env.type = "priv" ∨ env.type = "file_offer" ∨
             env.type = "file_chunk" ∨ env.type = "file_ack")
    (hdirect : ¬(env.type = "file_offer" ∧ env.«to» = some "*"))
    (hs : env.sender = some s) (hcs : st.get s = some csr)
    (hkey : csr.aes_key = some skey) (hto : env.«to» = some t)
    (hdec : decrypt_body skey env.payload = some body) :
    (st.get t = none →
      route st nonce now env =
        [(csr.sock, userNotFoundEnv now (some s) (some t))]) ∧
    (∀ c rkey, st.get t = some c → c.aes_key = some rkey →
      route st nonce now env =
        [(c.sock, { env with payload := encrypt_body nonce rkey body })]) := by
  have hr := route_directed st nonce now env s t csr skey body htype hdirect
    hs hcs hkey hto hdec
  constructor
  · intro habs
    rw [hr, habs]
  · intro c rkey hc hk
    rw [hr, hc]
    simp [hk]

/-- **C10** (confirmed).  A registered recipient whose session key is
not yet established (`aes_key` = `None`) is treated by the directed
branch exactly as an absent one: the sender is bounced the same
`USER_NOT_FOUND` error and the recipient receives nothing. -/
theorem C10_keyless_recipient_bounced (st : ServerState) (nonce : Bytes)
    (now : String) (env : Envelope) (s t : String) (csr c : Client)
    (skey : Bytes) (body : Body)
    (htype : env.type = "priv" ∨ env.type = "file_offer" ∨
             env.type = "file_chunk" ∨ env.type = "file_ack")
    (hdirect : ¬(env.type = "file_offer" ∧ env.«to» = some "*"))
    (hs : env.sender = some s) (hcs : st.get s = some csr)
    (hkey : csr.aes_key = some skey) (hto : env.«to» = some t)
    (hdec : decrypt_body skey env.payload = some body)
    (hc : st.get t = some c) (hckey : c.aes_key = none) :
    route st nonce now env =
      [(csr.sock, userNotFoundEnv now (some s) (some t))] := by
  rw [route_directed st nonce now env s t csr skey body htype hdirect
    hs hcs hkey hto hdec, hc]
  simp [hckey]

/-- A registry with two keyed clients `A` and `B`. -/
def wStAB2 : ServerState := ⟨[⟨"A", 1, some wKeyA⟩, ⟨"B", 2, some wKeyB⟩]⟩

/-- A `priv` envelope from `A` to the unregistered name `bob`. -/
def wEnvPrivBob : Envelope :=
  ⟨"priv", some "A", some "bob", "t0", encrypt_body wNonce wKeyA wBody⟩

/-- A `priv` envelope from `A` to `B`. -/
def wEnvPrivB : Envelope :=
  ⟨"priv", some "A", some "B", "t0", encrypt_body wNonce wKeyA wBody⟩

/-- The decryption fact for the shared concrete payload. -/
theorem wDec : decrypt_body wKeyA (encrypt_body wNonce wKeyA wBody) =
    some wBody :=
  decrypt_body_encrypt_body wKeyA wNonce wBody (by decide)

/-- Witness for C7 at concrete registries: the absent target `bob` gets
the single bounced error; the present keyed target `B` gets the single
re-encrypted delivery. -/
theorem C7_witness :
    route ⟨[⟨"A", 1, some wKeyA⟩]⟩ wNonce "t" wEnvPrivBob =
      [(1, userNotFoundEnv "t" (some "A") (some "bob"))] ∧
    route wStAB2 wNonce "t" wEnvPrivB =
      [(2, { wEnvPrivB with payload := encrypt_body wNonce wKeyB wBody })] :=
  ⟨(C7_user_not_found_or_deliver ⟨[⟨"A", 1, some wKeyA⟩]⟩ wNonce "t"
      wEnvPrivBob "A" "bob" ⟨"A", 1, some wKeyA⟩ wKeyA wBody
      (Or.inl rfl) (by simp [wEnvPrivBob]) rfl rfl rfl rfl wDec).1 rfl,
   (C7_user_not_found_or_deliver wStAB2 wNonce "t" wEnvPrivB "A" "B"
      ⟨"A", 1, some wKeyA⟩ wKeyA wBody
      (Or.inl rfl) (by simp [wEnvPrivB]) rfl rfl rfl rfl wDec).2
      ⟨"B", 2, some wKeyB⟩ wKeyB rfl rfl⟩

/-- Witness for C10: `B` is registered in `wStAB` but keyless; the
`priv` from `A` to `B` is bounced to `A` as `USER_NOT_FOUND`. -/
theorem C10_witness :
    route wStAB wNonce "t" wEnvPrivB =
      [(1, userNotFoundEnv "t" (some "A") (some "B"))] :=
  C10_keyless_recipient_bounced wStAB wNonce "t" wEnvPrivB "A" "B"
    ⟨"A", 1, some wKeyA⟩ ⟨"B", 2, none⟩ wKeyA wBody
    (Or.inl rfl) (by simp [wEnvPrivB]) rfl rfl rfl rfl wDec rfl rfl

theorem length_filterMap_eq_length_filter {α β} (f : α → Option β)
    (l : List α) :
    (l.filterMap f).length = (l.filter (fun a => (f a).isSome)).length := by
  induction l with
  | nil => rfl
  | cons a t ih =>
      cases hfa : f a <;> simp [List.filterMap_cons, List.filter_cons, hfa, ih]

/-- **C2** (amended).  A decryptable `pub` envelope from a keyed sender
is re-encrypted independently for every registered identity **whose
session key is established** — the sender included (self-echo) — and one
copy is delivered to each such identity's own socket; registered
identities with no established key receive nothing, and no other send
occurs. -/
theorem C2_amended_pub_broadcast (st : ServerState) (nonce : Bytes)
    (now : String) (env : Envelope) (s : String) (csr : Client)
    (skey : Bytes) (body : Body)
    (htype : env.type = "pub")
    (hs : env.sender = some s) (hcs : st.get s = some csr)
    (hkey : csr.aes_key = some skey)
    (hdec : decrypt_body skey env.payload = some body) :
    ((csr.sock,
        { env with
          «to» := some "*", payload := encrypt_body nonce skey body }) ∈
      route st nonce now env) ∧
    (∀ rcpt ∈ st.all_clients, ∀ rkey, rcpt.aes_key = some rkey →
      (rcpt.sock,
        { env with
          «to» := some "*", payload := encrypt_body nonce rkey body }) ∈
        route st nonce now env) ∧
    ((route st nonce now env).length =
      (st.all_clients.filter (fun r => r.aes_key.isSome)).length) ∧
    (∀ snd ∈ route st nonce now env, ∃ rcpt ∈ st.all_clients, ∃ rkey,
      rcpt.aes_key = some rkey ∧
      snd = (rcpt.sock,
        { env with
          «to» := some "*", payload := encrypt_body nonce rkey body })) := by
  have hr : route st nonce now env = st.all_clients.filterMap (fun rcpt =>
      match rcpt.aes_key with
      | some rkey =>
          some (rcpt.sock,
            { env with
              «to» := some "*", payload := encrypt_body nonce rkey body })
      | none => none) := by
    simp [route, hs, hcs, hkey, hdec, htype]
  have hcsr_mem : csr ∈ st.all_clients := List.mem_of_find?_eq_some hcs
  refine ⟨?_, ?_, ?_, ?_⟩
  · rw [hr]
    exact List.mem_filterMap.mpr ⟨csr, hcsr_mem, by rw [hkey]⟩
  · intro rcpt hm rkey hk
    rw [hr]
    exact List.mem_filterMap.mpr ⟨rcpt, hm, by rw [hk]⟩
  · rw [hr, length_filterMap_eq_length_filter]
    congr 1
    apply List.filter_congr
    intro r _
    cases hk : r.aes_key <;> simp [hk]
  · intro snd hsnd
    rw [hr] at hsnd
    obtain ⟨rcpt, hm, hfr⟩ := List.mem_filterMap.mp hsnd
    cases hk : rcpt.aes_key with
    | none =>
        rw [hk] at hfr
        simp at hfr
    | some rkey =>
        rw [hk] at hfr
        simp only [Option.some.injEq] at hfr
        exact ⟨rcpt, hm, rkey, hk, hfr.symm⟩

/-- **C2** (counterexample).  `B` is currently registered (mid-handshake,
no session key yet) while `A` sends a decryptable `pub`: the engine
delivers only to `A`'s socket `1`; registered `B` (socket `2`) receives
nothing, refuting delivery to *every* currently registered identity. -/
theorem C2_counterexample_keyless_skipped :
    ServerState.get wStAB "B" = some ⟨"B", 2, none⟩ ∧
    (route wStAB wNonce "t" wEnvPub).map Prod.fst = [1] := by
  decide

/-- Witness for C2 (amended) at the concrete registry: the self-echo to
`A` is among the sends. -/
theorem C2_witness :
    ((1 : Nat),
      { wEnvPub with
        «to» := some "*", payload := encrypt_body wNonce wKeyA wBody }) ∈
      route wStAB wNonce "t" wEnvPub :=
  (C2_amended_pub_broadcast wStAB wNonce "t" wEnvPub "A"
    ⟨"A", 1, some wKeyA⟩ wKeyA wBody rfl rfl rfl rfl wDec).1

/-- **C9** (confirmed).  For every message body and every 256-bit key
(and whatever 12-byte nonce `os.urandom` happens to draw),
`decrypt_body(k, encrypt_body(k, b)) == b`. -/
theorem C9_decrypt_encrypt_identity (k nonce : Bytes) (b : Body)
    (hklen : k.length = 32) (hkb : ∀ x ∈ k, x < 256)
    (hnlen : nonce.length = 12) (hnb : ∀ x ∈ nonce, x < 256) :
    decrypt_body k (encrypt_body nonce k b) = some b :=
  decrypt_body_encrypt_body k nonce b hnb

/-- Witness for C9 at a concrete key, nonce and body. -/
theorem C9_witness :
    decrypt_body wKeyA (encrypt_body wNonce wKeyA wBody) = some wBody :=
  C9_decrypt_encrypt_identity wKeyA wNonce wBody (by decide) (by decide)
    (by decide) (by decide)

/-! ### Dictionary lemmas for the chunk map -/

theorem dictGet_nil (k : Nat) : dictGet [] k = none := rfl

theorem dictGet_eq_none_iff (m : List (Nat × Bytes)) (k : Nat) :
    dictGet m k = none ↔ ∀ p ∈ m, p.1 ≠ k := by
  simp only [dictGet, Option.map_eq_none', List.find?_eq_none]
  constructor
  · intro h p hp
    simpa using h p hp
  · intro h p hp
    simpa using h p hp

theorem dictInsert_fresh (m : List (Nat × Bytes)) (k : Nat) (v : Bytes)
    (h : dictGet m k = none) : dictInsert m k v = m ++ [(k, v)] := by
  have h' := (dictGet_eq_none_iff m k).mp h
  have hany : m.any (fun p => p.1 == k) = false := by
    rw [List.any_eq_false]
    intro p hp
    simpa using h' p hp
  simp [dictInsert, hany]

theorem dictGet_append_left (m1 m2 : List (Nat × Bytes)) (k : Nat) (v : Bytes)
    (h : dictGet m1 k = some v) : dictGet (m1 ++ m2) k = some v := by
  simp only [dictGet, Option.map_eq_some'] at h ⊢
  obtain ⟨p, hp, hv⟩ := h
  exact ⟨p, by simp [List.find?_append, hp], hv⟩

theorem dictGet_append_right (m1 m2 : List (Nat × Bytes)) (k : Nat)
    (h : dictGet m1 k = none) : dictGet (m1 ++ m2) k = dictGet m2 k := by
  simp only [dictGet, Option.map_eq_none'] at h
  simp [dictGet, List.find?_append, h]

theorem dictGet_of_mem_nodup (m : List (Nat × Bytes)) (k : Nat) (v : Bytes)
    (hnd : (m.map Prod.fst).Nodup) (hmem : (k, v) ∈ m) :
    dictGet m k = some v := by
  induction m with
  | nil => simp at hmem
  | cons p t ih =>
      simp only [List.map_cons, List.nodup_cons] at hnd
      rcases List.mem_cons.mp hmem with rfl | hmem'
      · simp only [dictGet]
        rw [List.find?_cons_of_pos _ (by simp)]
        rfl
      · have hk : p.1 ≠ k := by
          intro hcon
          exact hnd.1 (hcon ▸ List.mem_map.mpr ⟨(k, v), hmem', rfl⟩)
        have := ih hnd.2 hmem'
        simp only [dictGet] at this ⊢
        rw [List.find?_cons_of_neg _ (by simpa using hk)]
        exact this

theorem dictGet_of_not_mem (m : List (Nat × Bytes)) (k : Nat)
    (h : k ∉ m.map Prod.fst) : dictGet m k = none := by
  rw [dictGet_eq_none_iff]
  intro p hp hcon
  exact h (hcon ▸ List.mem_map.mpr ⟨p, hp, rfl⟩)

/-- Folding fresh, pairwise-distinct insertions over a dict is plain
append. -/
theorem foldl_dictInsert_fresh (ps : List (Nat × Bytes))
    (m : List (Nat × Bytes))
    (hnd : (ps.map Prod.fst).Nodup)
    (hfresh : ∀ p ∈ ps, dictGet m p.1 = none) :
    ps.foldl (fun acc p => dictInsert acc p.1 p.2) m = m ++ ps := by
  induction ps generalizing m with
  | nil => simp
  | cons p t ih =>
      simp only [List.map_cons, List.nodup_cons] at hnd
      have hp : dictGet m p.1 = none := hfresh p (by simp)
      have hstep : dictInsert m p.1 p.2 = m ++ [(p.1, p.2)] :=
        dictInsert_fresh m p.1 p.2 hp
      have hfresh' : ∀ q ∈ t, dictGet (m ++ [(p.1, p.2)]) q.1 = none := by
        intro q hq
        rw [dictGet_append_right _ _ _ (hfresh q (by simp [hq]))]
        have hqk : p.1 ≠ q.1 := by
          intro hcon
          exact hnd.1 (hcon ▸ List.mem_map.mpr ⟨q, hq, rfl⟩)
        rw [dictGet_eq_none_iff]
        intro r hr
        simp only [List.mem_singleton] at hr
        subst hr
        simpa using hqk
      rw [List.foldl_cons, hstep, ih _ hnd.2 hfresh']
      simp

/-- The non-final steps of `processChunksFrom` only grow the chunk map. -/
theorem processChunksFrom_nonfinal (arr : List (Nat × Bytes × Bool))
    (h : ∀ x ∈ arr, x.2.2 = false) (c : DownloadCtx)
    (evs : List (Option Bytes)) :
    processChunksFrom (some c, evs) arr =
      (some { c with
        chunks := arr.foldl (fun m x => dictInsert m x.1 x.2.1) c.chunks },
       evs) := by
  induction arr generalizing c with
  | nil => simp [processChunksFrom]
  | cons a t ih =>
      have ha : a.2.2 = false := h a (by simp)
      have hstep : processChunk (some c) a.1 a.2.1 a.2.2 =
          (some { c with chunks := dictInsert c.chunks a.1 a.2.1 }, none) := by
        rw [ha]
        simp [processChunk]
      simp only [processChunksFrom, List.foldl_cons] at ih ⊢
      rw [hstep]
      simpa using ih (fun x hx => h x (by simp [hx]))
        { c with chunks := dictInsert c.chunks a.1 a.2.1 }

/-- The reconstruction loop succeeds and returns the values in key
order when every index below `n` is present. -/
theorem collectChunks_complete (m : List (Nat × Bytes)) (f : Nat → Bytes)
    (n : Nat) (h : ∀ i < n, dictGet m i = some (f i)) :
    collectChunks m n = some ((List.range n).map f) := by
  induction n with
  | zero => simp [collectChunks]
  | succ k ih =>
      have hk := h k (by omega)
      have ih' := ih (fun i hi => h i (by omega))
      simp [collectChunks, ih', hk, List.range_succ]

/-- `getD` over all positions recovers the list. -/
theorem range_map_getD {α} (l : List α) (d : α) :
    (List.range l.length).map (fun i => l.getD i d) = l := by
  induction l with
  | nil => simp
  | cons a t ih =>
      rw [List.length_cons, List.range_succ_eq_map, List.map_cons,
        List.map_map]
      have hhead : (a :: t).getD 0 d = a := rfl
      have htail : List.map ((fun i => (a :: t).getD i d) ∘ Nat.succ)
          (List.range t.length) =
          List.map (fun i => t.getD i d) (List.range t.length) :=
        List.map_congr_left (fun i _ => rfl)
      rw [hhead, htail, ih]

/-- `processChunk` treats a missing context exactly like the fresh
default context it creates. -/
theorem processChunk_none_eq_default (k : Nat) (d : Bytes) (f : Bool) :
    processChunk none k d f =
      processChunk (some (⟨"file.bin", [], 0⟩ : DownloadCtx)) k d f := rfl

/-- Processing a non-empty arrival list from a missing context equals
processing it from the fresh default context. -/
theorem processChunksFrom_none_eq_default (l : List (Nat × Bytes × Bool))
    (evs : List (Option Bytes)) (hl : l ≠ []) :
    processChunksFrom (none, evs) l =
      processChunksFrom (some (⟨"file.bin", [], 0⟩ : DownloadCtx), evs) l := by
  cases l with
  | nil => cases hl rfl
  | cons x xs =>
      simp only [processChunksFrom, List.foldl_cons]
      rw [processChunk_none_eq_default]

/-- **C3** (amended).  When the chunks of a transfer arrive in any order
in which the final marker (the sender's empty chunk with `seq = n`)
arrives last, preceded by the data chunks `0..n-1` in any permutation,
the receiver reconstructs — at the moment the final chunk arrives — by
concatenating the accumulated chunks in ascending `seq` order, obtaining
exactly the original byte sequence; the download context is then
discarded.  (If the final chunk instead arrives before some data chunk,
the reconstruction loop raises `KeyError` and no file is produced; see
the counterexample.) -/
theorem C3_amended_reconstruction (ds : List Bytes)
    (arr : List (Nat × Bytes × Bool))
    (hperm : arr.Perm (ds.enum.map (fun p => (p.1, p.2, false)))) :
    processChunks (arr ++ [(ds.length, [], true)]) =
      (none, [some ds.flatten]) := by
  have htarget_len : arr.length = ds.length := by
    have h := hperm.length_eq
    simpa using h
  have hfalse : ∀ x ∈ arr, x.2.2 = false := by
    intro x hx
    have hx' := hperm.mem_iff.mp hx
    simp only [List.mem_map] at hx'
    obtain ⟨p, _, rfl⟩ := hx'
    rfl
  have hkeys : (arr.map Prod.fst).Perm (List.range ds.length) := by
    have h1 := hperm.map Prod.fst
    have h2 : (ds.enum.map (fun p => (p.1, p.2, false))).map Prod.fst =
        ds.enum.map Prod.fst := by
      rw [List.map_map]
      rfl
    rw [h2, List.enum_map_fst] at h1
    exact h1
  have hnd : (arr.map Prod.fst).Nodup :=
    hkeys.nodup_iff.mpr (List.nodup_range _)
  have hpairs_perm : (arr.map (fun x => (x.1, x.2.1))).Perm ds.enum := by
    have h1 := hperm.map (fun x : Nat × Bytes × Bool => (x.1, x.2.1))
    have h2 : (ds.enum.map (fun p => (p.1, p.2, false))).map
        (fun x : Nat × Bytes × Bool => (x.1, x.2.1)) = ds.enum := by
      rw [List.map_map,
        show ((fun x : Nat × Bytes × Bool => (x.1, x.2.1)) ∘
          (fun p : Nat × Bytes => (p.1, p.2, false))) = id from rfl,
        List.map_id]
    rw [h2] at h1
    exact h1
  have hpairs_keys : (arr.map (fun x => (x.1, x.2.1))).map Prod.fst =
      arr.map Prod.fst := by
    rw [List.map_map]
    rfl
  have hpairs_nd : ((arr.map (fun x => (x.1, x.2.1))).map Prod.fst).Nodup := by
    rw [hpairs_keys]
    exact hnd
  have hM : arr.foldl (fun m x => dictInsert m x.1 x.2.1) [] =
      arr.map (fun x => (x.1, x.2.1)) := by
    have h1 := foldl_dictInsert_fresh (arr.map (fun x => (x.1, x.2.1))) []
      hpairs_nd (fun p _ => rfl)
    rw [List.foldl_map] at h1
    simpa using h1
  have hlen_pairs : (arr.map (fun x => (x.1, x.2.1))).length = ds.length := by
    rw [List.length_map, htarget_len]
  have hget_lt : ∀ i, i < ds.length →
      dictGet (arr.map (fun x => (x.1, x.2.1))) i = some (ds.getD i []) := by
    intro i hi
    cases hx : ds[i]? with
    | none => exact absurd (List.getElem?_eq_none_iff.mp hx) (by omega)
    | some x =>
        have henum : (i, x) ∈ ds.enum := List.mem_enum_iff_getElem?.mpr hx
        have hmem : (i, x) ∈ arr.map (fun x => (x.1, x.2.1)) :=
          hpairs_perm.mem_iff.mpr henum
        have hgd : ds.getD i [] = x := by
          rw [List.getD_eq_getElem?_getD, hx]
          rfl
        rw [hgd]
        exact dictGet_of_mem_nodup _ i x hpairs_nd hmem
  have hget_n : dictGet (arr.map (fun x => (x.1, x.2.1))) ds.length = none := by
    apply dictGet_of_not_mem
    intro hcon
    rw [hpairs_keys] at hcon
    have := hkeys.mem_iff.mp hcon
    simp [List.mem_range] at this
  have hins : dictInsert (arr.map (fun x => (x.1, x.2.1))) ds.length [] =
      arr.map (fun x => (x.1, x.2.1)) ++ [(ds.length, [])] :=
    dictInsert_fresh _ _ _ hget_n
  have hget' : ∀ i, i < ds.length + 1 →
      dictGet (arr.map (fun x => (x.1, x.2.1)) ++ [(ds.length, [])]) i =
        some ((ds ++ [[]]).getD i []) := by
    intro i hi
    by_cases hin : i < ds.length
    · have h1 := hget_lt i hin
      have h2 : (ds ++ [[]]).getD i [] = ds.getD i [] := by
        rw [List.getD_eq_getElem?_getD, List.getD_eq_getElem?_getD,
          List.getElem?_append_left hin]
      rw [h2]
      exact dictGet_append_left _ _ _ _ h1
    · have hieq : i = ds.length := by omega
      subst hieq
      rw [dictGet_append_right _ _ _ hget_n]
      have h1 : dictGet [(ds.length, [])] ds.length = some [] := by
        simp [dictGet]
      have h2 : (ds ++ [[]]).getD ds.length [] = [] := by
        rw [List.getD_eq_getElem?_getD,
          List.getElem?_append_right (le_refl _)]
        simp
      rw [h1, h2]
  have hcollect : collectChunks
      (arr.map (fun x => (x.1, x.2.1)) ++ [(ds.length, [])])
      (ds.length + 1) =
      some ((List.range (ds.length + 1)).map
        (fun i => (ds ++ [[]]).getD i [])) :=
    collectChunks_complete _ _ _ hget'
  have hrange : (List.range (ds.length + 1)).map
      (fun i => (ds ++ [[]]).getD i []) = ds ++ [[]] := by
    have h := range_map_getD (ds ++ [[]]) []
    simpa using h
  have hflat : (ds ++ [[]]).flatten = ds.flatten := by
    simp
  have hlenM : (arr.map (fun x : Nat × Bytes × Bool => (x.1, x.2.1)) ++
      [(ds.length, ([] : Bytes))]).length = ds.length + 1 := by
    simp [hlen_pairs]
  have hfinal : processChunksFrom
      (some (⟨"file.bin", arr.map (fun x => (x.1, x.2.1)), 0⟩ : DownloadCtx),
        ([] : List (Option Bytes))) [(ds.length, [], true)] =
      (none, [some ds.flatten]) := by
    simp only [processChunksFrom, List.foldl_cons, List.foldl_nil,
      processChunk]
    rw [hins, hlenM, hcollect, hrange]
    simp [hflat]
  have hsplit : processChunksFrom
      (some (⟨"file.bin", [], 0⟩ : DownloadCtx), ([] : List (Option Bytes)))
      (arr ++ [(ds.length, [], true)]) =
      processChunksFrom (processChunksFrom
        (some (⟨"file.bin", [], 0⟩ : DownloadCtx), []) arr)
        [(ds.length, [], true)] := by
    simp [processChunksFrom, List.foldl_append]
  rw [processChunks, processChunksFrom_none_eq_default _ _ (by simp), hsplit,
    processChunksFrom_nonfinal arr hfalse ⟨"file.bin", [], 0⟩ [], hM]
  exact hfinal

/-- **C3** (counterexample).  The final marker (empty chunk, `seq = 1`)
arrives before data chunk `0`.  On its arrival the code immediately runs
the reconstruction loop — it does not wait for all sequence numbers —
and the missing index raises `KeyError` (the `none` save event); after
chunk `0` arrives, all of `0..max` are present and the accumulated count
equals the final seq + 1, yet no reconstruction ever produces the
original bytes `[7]`: the claim's guarded, order-independent
reconstruction does not hold. -/
theorem C3_counterexample_early_final :
    (processChunks [(1, [], true), (0, [7], false)]).2 = [none] ∧
    ∀ ev ∈ (processChunks [(1, [], true), (0, [7], false)]).2,
      ev ≠ some [7] := by
  decide

/-- Witness for C3 (amended): chunks of the file `[7,8] ++ [9]` arriving
out of order (`seq` order `1, 0`, then the final marker `2`) reconstruct
to the original bytes. -/
theorem C3_witness :
    processChunks [(1, [9], false), (0, [7, 8], false), (2, [], true)] =
      (none, [some [7, 8, 9]]) := by
  have h := C3_amended_reconstruction [[7, 8], [9]]
    [(1, [9], false), (0, [7, 8], false)] (by decide)
  simpa using h

end Chat
